import Mathlib

/-!
Shallow embedding of the deterministic-IP-networking simulator
(`algorithms.py`, `models.py`, `network.py`, `core_node.py`,
`ingress_node.py`, `main.py`).

Numeric values (Python floats) are modelled as rationals; Python
`math.ceil` is `Int.ceil`; Python `%` on integers is `Int.emod`
(both give non-negative results for a positive modulus).
Python dictionaries are modelled as association lists preserving
insertion order, and `dict.get(k, d)` as an association-list lookup
with default.  External library calls (`networkx.dijkstra_path`,
`scipy.optimize.linprog`) are modelled as oracle parameters; an
exception raised by a library call (`NetworkXNoPath`) is an
`Except.error`.
-/

namespace DetNet

/-- Flow record from `models.py` (`Flow.__init__`). -/
structure Flow where
  flow_id : ℕ
  arrival_rate : ℚ
  burst_size : ℚ
  max_e2e_delay : ℚ
  max_pkt_size : ℚ
  src : ℕ
  dest : ℕ
deriving DecidableEq, Repr

/-- Packet record from `models.py` (`Packet.__init__`): size (KB), flow id,
and the cycle label (`None` until assigned). -/
structure Packet where
  size : ℚ
  flow_id : ℕ
  label : Option ℤ
deriving DecidableEq, Repr

/-- Association-list lookup with default, modelling Python `dict.get(k, d)`. -/
def alistGet {α β : Type} [BEq α] (m : List (α × β)) (k : α) (d : β) : β :=
  match m.find? (fun x => x.1 == k) with
  | some kv => kv.2
  | none => d

/-- Set-insertion into the accumulator, modelling `B_f.add(possible_param)`
on the Python `set` (no duplicates). -/
def addParam (x : ℚ) (acc : List ℚ) : List ℚ :=
  if x ∈ acc then acc else x :: acc

/-- Test `ceil_value >= prev_ceil_value` from `algorithms.py` line 24:
the initial `prev_ceil_value = float('inf')` is modelled by `none`, for
which the comparison is always false. -/
def prevLE (prev : Option ℤ) (c : ℤ) : Bool :=
  match prev with
  | none => false
  | some p => p ≤ c

/-- Loop body of `possible_shaping_parameters` (`algorithms.py` lines 14-27),
with explicit fuel standing for the unbounded Python `while True`.
Arguments: burst size `bf`, max packet size `MPS`, the threshold
`rfT = rf * T`, iteration counter `n` (starts at 1), the previous ceil
value (`none` models the initial `float('inf')`), and the accumulated set.
Returns `none` when the fuel is exhausted before the loop breaks. -/
def shapingLoop (bf MPS rfT : ℚ) : ℕ → ℕ → Option ℤ → List ℚ → Option (List ℚ)
  | 0, _, _, _ => none
  | fuel+1, n, prev, acc =>
    if rfT ≤ ((⌈bf / (n : ℚ)⌉ : ℤ) : ℚ) then
      if prevLE prev ⌈bf / (n : ℚ)⌉ then
        some (addParam (MPS * ((⌈bf / ((n : ℚ) * MPS)⌉ : ℤ) : ℚ)) acc)
      else
        shapingLoop bf MPS rfT fuel (n+1) (some ⌈bf / (n : ℚ)⌉)
          (addParam (MPS * ((⌈bf / ((n : ℚ) * MPS)⌉ : ℤ) : ℚ)) acc)
    else
      some acc

/-- Conversion factor `0.000125` (Mbps to KB/µs) from `algorithms.py` line 13. -/
def mbpsToKBus : ℚ := 125 / 1000000

/-- `possible_shaping_parameters(flow, T)` from `algorithms.py` lines 8-28:
run the enumeration loop (with fuel `⌈b_f⌉ + 2`, proved sufficient for
positive bursts in `shapingLoop_fuel_sufficient`) and return the
accumulated set sorted ascending, modelling Python `sorted`. -/
def possible_shaping_parameters (fl : Flow) (T : ℚ) : List ℚ :=
  ((shapingLoop fl.burst_size fl.max_pkt_size (fl.arrival_rate * mbpsToKBus * T)
      (⌈fl.burst_size⌉.toNat + 2) 1 none []).getD []).insertionSort (· ≤ ·)

/-- Rewriting `Int.ceil` through `Int.floor` lets `norm_num` (which has a
floor extension) evaluate ceilings on concrete rationals. -/
theorem ceil_via_floor (a : ℚ) : ⌈a⌉ = -⌊-a⌋ := by
  rw [Int.floor_neg, neg_neg]

/-- The form every value in `B_f` has: `MPS * ⌈b_f / (n * MPS)⌉` for some
iteration index `n ≥ 1` whose ceiling `⌈b_f / n⌉` passed the rate test. -/
def IsShapingParam (bf MPS rfT x : ℚ) : Prop :=
  ∃ n : ℕ, 1 ≤ n ∧ x = MPS * ((⌈bf / ((n : ℚ) * MPS)⌉ : ℤ) : ℚ) ∧
    rfT ≤ ((⌈bf / (n : ℚ)⌉ : ℤ) : ℚ)

theorem mem_addParam {x y : ℚ} {acc : List ℚ} (h : x ∈ addParam y acc) :
    x = y ∨ x ∈ acc := by
  by_cases hmem : y ∈ acc
  · rw [addParam, if_pos hmem] at h
    exact Or.inr h
  · rw [addParam, if_neg hmem] at h
    exact List.mem_cons.mp h

theorem addParam_nodup {y : ℚ} {acc : List ℚ} (h : acc.Nodup) :
    (addParam y acc).Nodup := by
  by_cases hmem : y ∈ acc
  · rw [addParam, if_pos hmem]
    exact h
  · rw [addParam, if_neg hmem]
    exact List.nodup_cons.mpr ⟨hmem, h⟩

theorem shapingLoop_inv (bf MPS rfT : ℚ) :
    ∀ fuel n prev acc l, 1 ≤ n →
    (∀ x ∈ acc, IsShapingParam bf MPS rfT x) → acc.Nodup →
    shapingLoop bf MPS rfT fuel n prev acc = some l →
    (∀ x ∈ l, IsShapingParam bf MPS rfT x) ∧ l.Nodup := by
  intro fuel
  induction fuel with
  | zero => intro n prev acc l _ _ _ h; exact absurd h (by simp [shapingLoop])
  | succ fuel ih =>
    intro n prev acc l hn hacc hnd h
    rw [shapingLoop] at h
    by_cases hc : rfT ≤ ((⌈bf / (n : ℚ)⌉ : ℤ) : ℚ)
    · rw [if_pos hc] at h
      have hacc2 : ∀ x ∈ addParam (MPS * ((⌈bf / ((n : ℚ) * MPS)⌉ : ℤ) : ℚ)) acc,
          IsShapingParam bf MPS rfT x := by
        intro x hx
        rcases mem_addParam hx with hx | hx
        · exact ⟨n, hn, hx, hc⟩
        · exact hacc x hx
      have hnd2 : (addParam (MPS * ((⌈bf / ((n : ℚ) * MPS)⌉ : ℤ) : ℚ)) acc).Nodup :=
        addParam_nodup hnd
      by_cases hp : prevLE prev ⌈bf / (n : ℚ)⌉ = true
      · rw [if_pos hp] at h
        cases h
        exact ⟨hacc2, hnd2⟩
      · rw [if_neg hp] at h
        exact ih (n+1) (some ⌈bf / (n : ℚ)⌉) _ l (le_trans hn (Nat.le_succ n)) hacc2 hnd2 h
    · rw [if_neg hc] at h
      cases h
      exact ⟨hacc, hnd⟩

/-- C7 (confirmed): `possible_shaping_parameters` returns an ascending
duplicate-free list, every element has the documented closed form with its
iteration index passing the rate test, and the function is deterministic. -/
theorem possible_shaping_parameters_spec (fl : Flow) (T : ℚ)
    (hb : 0 < fl.burst_size) (hm : 0 < fl.max_pkt_size) (hr : 0 < fl.arrival_rate) :
    List.Sorted (· ≤ ·) (possible_shaping_parameters fl T) ∧
    (possible_shaping_parameters fl T).Nodup ∧
    (∀ x ∈ possible_shaping_parameters fl T,
      IsShapingParam fl.burst_size fl.max_pkt_size (fl.arrival_rate * mbpsToKBus * T) x) ∧
    possible_shaping_parameters fl T = possible_shaping_parameters fl T := by
  have hbase : (∀ x ∈ (shapingLoop fl.burst_size fl.max_pkt_size
        (fl.arrival_rate * mbpsToKBus * T) (⌈fl.burst_size⌉.toNat + 2) 1 none []).getD [],
        IsShapingParam fl.burst_size fl.max_pkt_size (fl.arrival_rate * mbpsToKBus * T) x) ∧
      ((shapingLoop fl.burst_size fl.max_pkt_size (fl.arrival_rate * mbpsToKBus * T)
        (⌈fl.burst_size⌉.toNat + 2) 1 none []).getD []).Nodup := by
    cases hres : shapingLoop fl.burst_size fl.max_pkt_size (fl.arrival_rate * mbpsToKBus * T)
        (⌈fl.burst_size⌉.toNat + 2) 1 none [] with
    | none => simp
    | some l =>
      have := shapingLoop_inv fl.burst_size fl.max_pkt_size (fl.arrival_rate * mbpsToKBus * T)
        (⌈fl.burst_size⌉.toNat + 2) 1 none [] l le_rfl (by simp) List.nodup_nil hres
      simpa using this
  refine ⟨?_, ?_, ?_, rfl⟩
  · rw [possible_shaping_parameters]
    exact List.sorted_insertionSort (· ≤ ·) _
  · rw [possible_shaping_parameters]
    exact (List.Perm.nodup_iff (List.perm_insertionSort (· ≤ ·) _)).mpr hbase.2
  · intro x hx
    rw [possible_shaping_parameters] at hx
    rw [List.mem_insertionSort] at hx
    exact hbase.1 x hx

theorem ceil_div_nat_pos {bf : ℚ} (hb : 0 < bf) {n : ℕ} (hn : 1 ≤ n) :
    1 ≤ ⌈bf / (n : ℚ)⌉ := by
  have hnq : (0 : ℚ) < (n : ℚ) := by exact_mod_cast Nat.lt_of_lt_of_le Nat.zero_lt_one hn
  exact Int.ceil_pos.mpr (div_pos hb hnq)

theorem shapingLoop_some_of_prev (bf MPS rfT : ℚ) (hb : 0 < bf) :
    ∀ fuel n p acc, 1 ≤ n → 1 ≤ p → p.toNat < fuel →
    ∃ l, shapingLoop bf MPS rfT fuel n (some p) acc = some l := by
  intro fuel
  induction fuel with
  | zero => intro n p acc _ _ hf; exact absurd hf (Nat.not_lt_zero _)
  | succ fuel ih =>
    intro n p acc hn hp hf
    rw [shapingLoop]
    by_cases hc : rfT ≤ ((⌈bf / (n : ℚ)⌉ : ℤ) : ℚ)
    · rw [if_pos hc]
      by_cases hple : prevLE (some p) ⌈bf / (n : ℚ)⌉ = true
      · rw [if_pos hple]
        exact ⟨_, rfl⟩
      · rw [if_neg hple]
        have hlt : ⌈bf / (n : ℚ)⌉ < p := by
          simp only [prevLE, decide_eq_true_eq] at hple
          omega
        have hc1 : 1 ≤ ⌈bf / (n : ℚ)⌉ := ceil_div_nat_pos hb hn
        exact ih (n+1) ⌈bf / (n : ℚ)⌉ _ (le_trans hn (Nat.le_succ n)) hc1 (by omega)
    · rw [if_neg hc]
      exact ⟨acc, rfl⟩

/-- C10 (confirmed): for positive burst and packet sizes, the enumeration
loop of `possible_shaping_parameters` exits within `⌈b_f⌉ + 2` iterations:
with that much fuel `shapingLoop` never reports exhaustion. -/
theorem shapingLoop_terminates (fl : Flow) (T : ℚ)
    (hb : 0 < fl.burst_size) (hm : 0 < fl.max_pkt_size) :
    ∃ l, shapingLoop fl.burst_size fl.max_pkt_size (fl.arrival_rate * mbpsToKBus * T)
      (⌈fl.burst_size⌉.toNat + 2) 1 none [] = some l := by
  rw [shapingLoop]
  by_cases hc : fl.arrival_rate * mbpsToKBus * T ≤ ((⌈fl.burst_size / ((1:ℕ) : ℚ)⌉ : ℤ) : ℚ)
  · rw [if_pos hc]
    rw [if_neg (by simp [prevLE])]
    have hc1 : 1 ≤ ⌈fl.burst_size / ((1:ℕ) : ℚ)⌉ := ceil_div_nat_pos hb le_rfl
    refine shapingLoop_some_of_prev _ _ _ hb _ 2 _ _ (by norm_num) hc1 ?_
    have heq : ⌈fl.burst_size / ((1:ℕ) : ℚ)⌉ = ⌈fl.burst_size⌉ := by norm_num
    omega
  · rw [if_neg hc]
    exact ⟨[], rfl⟩

/-- Concrete flow used by witnesses: rate 8 Mbps, burst 8 KB, max delay
100000 µs, MPS 1 KB, from node 1 to node 3. -/
def flowA : Flow := ⟨1, 8, 8, 100000, 1, 1, 3⟩

/-- Witness for C7: the hypotheses hold for `flowA` with `T = 1000` and the
theorem applies there. -/
theorem possible_shaping_parameters_spec_witness :
    (0 < flowA.burst_size ∧ 0 < flowA.max_pkt_size ∧ 0 < flowA.arrival_rate) ∧
    (List.Sorted (· ≤ ·) (possible_shaping_parameters flowA 1000) ∧
      (possible_shaping_parameters flowA 1000).Nodup ∧
      (∀ x ∈ possible_shaping_parameters flowA 1000,
        IsShapingParam flowA.burst_size flowA.max_pkt_size
          (flowA.arrival_rate * mbpsToKBus * 1000) x) ∧
      possible_shaping_parameters flowA 1000 = possible_shaping_parameters flowA 1000) :=
  ⟨⟨by norm_num [flowA], by norm_num [flowA], by norm_num [flowA]⟩,
    possible_shaping_parameters_spec flowA 1000 (by norm_num [flowA]) (by norm_num [flowA])
      (by norm_num [flowA])⟩

/-- Witness for C10: the hypotheses hold for `flowA` with `T = 1000` and the
theorem applies there. -/
theorem shapingLoop_terminates_witness :
    (0 < flowA.burst_size ∧ 0 < flowA.max_pkt_size) ∧
    ∃ l, shapingLoop flowA.burst_size flowA.max_pkt_size
      (flowA.arrival_rate * mbpsToKBus * 1000) (⌈flowA.burst_size⌉.toNat + 2) 1 none [] = some l :=
  ⟨⟨by norm_num [flowA], by norm_num [flowA]⟩,
    shapingLoop_terminates flowA 1000 (by norm_num [flowA]) (by norm_num [flowA])⟩

/-- Sum of edge delays along a path, from `algorithms.py` line 38:
`sum(graph[u][v]['delay'] for u, v in zip(path[:-1], path[1:]))`.
The undirected graph's per-edge delay is supplied as a function. -/
def pathDelay (delay : ℕ → ℕ → ℚ) : List ℕ → ℚ
  | u :: v :: rest => delay u v + pathDelay delay (v :: rest)
  | _ => 0

/-- Bisection loop of `larac_algorithm` (`algorithms.py` lines 41-53).
`sp q` models `nx.dijkstra_path` under the Lagrangian weight for
`lambda = q`; `none` models the `NetworkXNoPath` exception, which aborts
the whole call (`Except.error ()`).  The iteration count (50 in the
source) is the fuel; `lo`/`hi` are `lambda_low`/`lambda_high` and `best`
is `best_path`. -/
def laracAux (sp : ℚ → Option (List ℕ)) (delay : ℕ → ℕ → ℚ) (D : ℚ) :
    ℕ → ℚ → ℚ → Option (List ℕ) → Except Unit (Option (List ℕ))
  | 0, _, _, best => Except.ok best
  | fuel+1, lo, hi, best =>
    match sp ((lo + hi) / 2) with
    | none => Except.error ()
    | some p =>
      if pathDelay delay p ≤ D then laracAux sp delay D fuel lo ((lo + hi) / 2) (some p)
      else laracAux sp delay D fuel ((lo + hi) / 2) hi best

/-- `larac_algorithm(graph, source, destination, delay_constraint, dual_costs)`
(`algorithms.py` lines 31-53): 50 bisection iterations on
`lambda ∈ [0, 1e6]`, returning the last feasible path or `none`. -/
def larac_algorithm (sp : ℚ → Option (List ℕ)) (delay : ℕ → ℕ → ℚ) (D : ℚ) :
    Except Unit (Option (List ℕ)) :=
  laracAux sp delay D 50 0 1000000 none

/-- The sequence of paths probed by the bisection of `larac_algorithm`:
same recursion and same branching as `laracAux`, recording each path the
shortest-path oracle returns. -/
def laracProbes (sp : ℚ → Option (List ℕ)) (delay : ℕ → ℕ → ℚ) (D : ℚ) :
    ℕ → ℚ → ℚ → List (List ℕ)
  | 0, _, _ => []
  | fuel+1, lo, hi =>
    match sp ((lo + hi) / 2) with
    | none => []
    | some p =>
      if pathDelay delay p ≤ D then p :: laracProbes sp delay D fuel lo ((lo + hi) / 2)
      else p :: laracProbes sp delay D fuel ((lo + hi) / 2) hi

theorem laracAux_ok_some (sp : ℚ → Option (List ℕ)) (delay : ℕ → ℕ → ℚ) (D : ℚ) :
    ∀ fuel lo hi best p, laracAux sp delay D fuel lo hi best = Except.ok (some p) →
    best = some p ∨ ∃ q, sp q = some p ∧ pathDelay delay p ≤ D := by
  intro fuel
  induction fuel with
  | zero =>
    intro lo hi best p h
    rw [laracAux] at h
    exact Or.inl (Except.ok.inj h)
  | succ fuel ih =>
    intro lo hi best p h
    rw [laracAux] at h
    cases hsp : sp ((lo + hi) / 2) with
    | none => rw [hsp] at h; cases h
    | some r =>
      rw [hsp] at h
      dsimp only at h
      by_cases hfeas : pathDelay delay r ≤ D
      · rw [if_pos hfeas] at h
        rcases ih lo ((lo + hi) / 2) (some r) p h with hb | hq
        · exact Or.inr ⟨(lo + hi) / 2, Option.some.inj hb ▸ hsp, Option.some.inj hb ▸ hfeas⟩
        · exact Or.inr hq
      · rw [if_neg hfeas] at h
        exact ih ((lo + hi) / 2) hi best p h

theorem laracAux_some_ne_none (sp : ℚ → Option (List ℕ)) (delay : ℕ → ℕ → ℚ) (D : ℚ) :
    ∀ fuel lo hi b, laracAux sp delay D fuel lo hi (some b) ≠ Except.ok none := by
  intro fuel
  induction fuel with
  | zero => intro lo hi b h; rw [laracAux] at h; cases h
  | succ fuel ih =>
    intro lo hi b h
    rw [laracAux] at h
    cases hsp : sp ((lo + hi) / 2) with
    | none => rw [hsp] at h; cases h
    | some r =>
      rw [hsp] at h
      dsimp only at h
      by_cases hfeas : pathDelay delay r ≤ D
      · rw [if_pos hfeas] at h; exact ih lo ((lo + hi) / 2) r h
      · rw [if_neg hfeas] at h; exact ih ((lo + hi) / 2) hi b h

theorem laracAux_none_iff (sp : ℚ → Option (List ℕ)) (delay : ℕ → ℕ → ℚ) (D : ℚ)
    (hsp : ∀ q, ∃ p, sp q = some p) :
    ∀ fuel lo hi, (laracAux sp delay D fuel lo hi none = Except.ok none ↔
      ∀ p ∈ laracProbes sp delay D fuel lo hi, ¬ pathDelay delay p ≤ D) := by
  intro fuel
  induction fuel with
  | zero =>
    intro lo hi
    rw [laracAux, laracProbes]
    simp
  | succ fuel ih =>
    intro lo hi
    rw [laracAux, laracProbes]
    obtain ⟨r, hr⟩ := hsp ((lo + hi) / 2)
    rw [hr]
    dsimp only
    by_cases hfeas : pathDelay delay r ≤ D
    · rw [if_pos hfeas, if_pos hfeas]
      constructor
      · intro h
        exact absurd h (laracAux_some_ne_none sp delay D fuel lo ((lo + hi) / 2) r)
      · intro h
        exact absurd hfeas (h r (List.mem_cons_self r _))
    · rw [if_neg hfeas, if_neg hfeas]
      constructor
      · intro h p hp
        rcases List.mem_cons.mp hp with rfl | hp
        · exact hfeas
        · exact (ih ((lo + hi) / 2) hi).mp h p hp
      · intro h
        exact (ih ((lo + hi) / 2) hi).mpr (fun p hp => h p (List.mem_cons_of_mem r hp))

/-- C4 (confirmed): when the shortest-path oracle always returns a path
from `s` to `t` (the connected case), `larac_algorithm` never raises; a
returned path starts at `s`, ends at `t` and meets the delay budget, and
`none` is returned exactly when no probed lambda produced a path meeting
the budget. -/
theorem larac_algorithm_spec (sp : ℚ → Option (List ℕ)) (delay : ℕ → ℕ → ℚ)
    (D : ℚ) (s t : ℕ)
    (hsp : ∀ q, ∃ p, sp q = some p ∧ p.head? = some s ∧ p.getLast? = some t) :
    (∀ p, larac_algorithm sp delay D = Except.ok (some p) →
      p.head? = some s ∧ p.getLast? = some t ∧ pathDelay delay p ≤ D) ∧
    (larac_algorithm sp delay D = Except.ok none ↔
      ∀ p ∈ laracProbes sp delay D 50 0 1000000, ¬ pathDelay delay p ≤ D) := by
  constructor
  · intro p h
    rcases laracAux_ok_some sp delay D 50 0 1000000 none p h with hb | ⟨q, hq, hfeas⟩
    · cases hb
    · obtain ⟨p', hp', hh, hl⟩ := hsp q
      rw [hq] at hp'
      cases Option.some.inj hp'
      exact ⟨hh, hl, hfeas⟩
  · exact laracAux_none_iff sp delay D (fun q => (hsp q).imp (fun p hp => hp.1)) 50 0 1000000

/-- Witness for C4: a constant oracle returning the path `[0, 1]` of zero
delay satisfies the hypotheses with `s = 0`, `t = 1`, `D = 0`. -/
theorem larac_algorithm_spec_witness :
    (∀ q : ℚ, ∃ p, (fun _ : ℚ => some [0, 1]) q = some p ∧
      p.head? = some 0 ∧ p.getLast? = some 1) ∧
    ((∀ p, larac_algorithm (fun _ => some [0, 1]) (fun _ _ => 0) 0 = Except.ok (some p) →
      p.head? = some 0 ∧ p.getLast? = some 1 ∧ pathDelay (fun _ _ => 0) p ≤ 0) ∧
    (larac_algorithm (fun _ => some [0, 1]) (fun _ _ => 0) 0 = Except.ok none ↔
      ∀ p ∈ laracProbes (fun _ => some [0, 1]) (fun _ _ => 0) 0 50 0 1000000,
        ¬ pathDelay (fun _ _ => 0) p ≤ 0)) :=
  ⟨fun _ => ⟨[0, 1], rfl, rfl, rfl⟩,
    larac_algorithm_spec (fun _ => some [0, 1]) (fun _ _ => 0) 0 0 1
      (fun _ => ⟨[0, 1], rfl, rfl, rfl⟩)⟩

/-- `calculate_overall_delay(network, path, T, delay_values)` from
`network.py` lines 101-111: for each consecutive pair, the propagation
delay (directed lookup into `network.delays`, default 0), the queuing
delay of the next node (default 0), and `T/1000` (µs to ms). -/
def calculate_overall_delay (delays : List ((ℕ × ℕ) × ℚ)) (qdel : List (ℕ × ℚ))
    (T : ℚ) (p : List ℕ) : ℚ :=
  ((p.zip p.tail).map (fun uv => alistGet delays uv 0 + alistGet qdel uv.2 0 + T / 1000)).sum

/-- Column cost `sum(dual_vars.get((u, v), 0) for u, v in zip(path[:-1], path[1:]))`
from `algorithms.py` line 99. -/
def pathCost (duals : List ((ℕ × ℕ) × ℚ)) (p : List ℕ) : ℚ :=
  ((p.zip p.tail).map (fun uv => alistGet duals uv 0)).sum

/-- Loop of `solve_pricing_problem` (`algorithms.py` lines 84-103) over the
candidate shaping parameters.  State is `(best_path, best_b_prime, best_cost)`
with `none` for the initial `None`, `None`, `float('inf')`.  An exception
escaping `larac_algorithm` aborts the whole call. -/
def pricingLoop (fl : Flow) (sp : ℚ → Option (List ℕ)) (edgeDelay : ℕ → ℕ → ℚ)
    (delays : List ((ℕ × ℕ) × ℚ)) (qdel : List (ℕ × ℚ)) (duals : List ((ℕ × ℕ) × ℚ))
    (T : ℚ) :
    List ℚ → Option (List ℕ) × Option ℚ × Option ℚ → Except Unit (Option (List ℕ) × Option ℚ)
  | [], st => Except.ok (st.1, st.2.1)
  | bp :: rest, st =>
    if fl.max_e2e_delay - (((⌈fl.burst_size / bp⌉ : ℤ) : ℚ) * T + T) < 0 then
      pricingLoop fl sp edgeDelay delays qdel duals T rest st
    else
      match larac_algorithm sp edgeDelay
          (fl.max_e2e_delay - (((⌈fl.burst_size / bp⌉ : ℤ) : ℚ) * T + T)) with
      | Except.error e => Except.error e
      | Except.ok none => pricingLoop fl sp edgeDelay delays qdel duals T rest st
      | Except.ok (some p) =>
        if p = [] then pricingLoop fl sp edgeDelay delays qdel duals T rest st
        else
          if (((⌈fl.burst_size / bp⌉ : ℤ) : ℚ) * T + T) + calculate_overall_delay delays qdel T p ≤
              fl.max_e2e_delay then
            if (match st.2.2 with
                | none => true
                | some c => decide (pathCost duals p < c)) then
              pricingLoop fl sp edgeDelay delays qdel duals T rest
                (some p, some bp, some (pathCost duals p))
            else
              pricingLoop fl sp edgeDelay delays qdel duals T rest st
          else
            pricingLoop fl sp edgeDelay delays qdel duals T rest st

/-- `solve_pricing_problem(flow, network, dual_vars, cycle_duration_T, queuing_delays)`
(`algorithms.py` lines 79-105): try every candidate shaping parameter and
return the best (path, shaping parameter) pair. -/
def solve_pricing_problem (fl : Flow) (sp : ℚ → Option (List ℕ)) (edgeDelay : ℕ → ℕ → ℚ)
    (delays : List ((ℕ × ℕ) × ℚ)) (qdel : List (ℕ × ℚ)) (duals : List ((ℕ × ℕ) × ℚ))
    (T : ℚ) : Except Unit (Option (List ℕ) × Option ℚ) :=
  pricingLoop fl sp edgeDelay delays qdel duals T (possible_shaping_parameters fl T)
    (none, none, none)

/-- Concrete flow for the disconnected-pair scenario: rate 8 Mbps, burst
4 KB, max delay 100000 µs, MPS 1 KB, src 1, dest 3 (with nodes 1 and 3 in
different components every `nx.dijkstra_path` call raises). -/
def flowB : Flow := ⟨2, 8, 4, 100000, 1, 1, 3⟩

/-- C2 (code bug): with a disconnected source/destination pair — modelled
by the oracle returning `none`, i.e. `nx.dijkstra_path` raising
`NetworkXNoPath` — `solve_pricing_problem` does NOT complete normally: the
exception propagates out (`Except.error`), contradicting the claim that
the pipeline merely reports the flow as unadmitted. -/
theorem solve_pricing_problem_disconnected_raises :
    solve_pricing_problem flowB (fun _ => none) (fun _ _ => 0) [] [] [] 1000 =
      Except.error () := by
  have hparams : possible_shaping_parameters flowB 1000 = [2, 4] := by
    norm_num [possible_shaping_parameters, shapingLoop, addParam, prevLE, mbpsToKBus,
      ceil_via_floor, List.insertionSort, List.orderedInsert, flowB]
  rw [solve_pricing_problem, hparams, pricingLoop]
  have hc : ¬ (flowB.max_e2e_delay - (((⌈flowB.burst_size / 2⌉ : ℤ) : ℚ) * 1000 + 1000) < 0) := by
    norm_num [flowB, ceil_via_floor]
  rw [if_neg hc]
  rfl

/-- Directed consecutive pairs of a path, `zip(p[:-1], p[1:])`, the
iterable against which `solve_rmp` tests edge membership
(`algorithms.py` line 66). -/
def pathEdges (p : List ℕ) : List (ℕ × ℕ) := p.zip p.tail

/-- Capacity-constraint coefficient of a column `(f, p, b_prime)` in the
row of edge `e`, from `solve_rmp` (`algorithms.py` lines 64-67):
`constraint[i] = b_prime` when `e in zip(p[:-1], p[1:])`, else 0. -/
def rmpCoeff (e : ℕ × ℕ) (p : List ℕ) (bp : ℚ) : ℚ :=
  if e ∈ pathEdges p then bp else 0

/-- Right-hand side of the capacity row of edge `e`, from `solve_rmp`
(`algorithms.py` line 69): `network.bandwidths[e] * cycle_duration_T`. -/
def rmpRhs (bandwidth T : ℚ) : ℚ := bandwidth * T

/-- Path `p` traverses the ordered pair `e` in traversal order. -/
def traversesForward (e : ℕ × ℕ) (p : List ℕ) : Prop :=
  ∃ i, p.get? i = some e.1 ∧ p.get? (i+1) = some e.2

/-- Path `p` traverses edge `e` in either direction, as `(u,v)` or `(v,u)`. -/
def traversesEither (e : ℕ × ℕ) (p : List ℕ) : Prop :=
  traversesForward e p ∨ traversesForward (e.2, e.1) p

theorem mem_pathEdges_iff (e : ℕ × ℕ) : ∀ p : List ℕ, e ∈ pathEdges p ↔ traversesForward e p
  | [] => by
    constructor
    · intro h; cases h
    · rintro ⟨i, h1, _⟩; cases i <;> cases h1
  | [u] => by
    constructor
    · intro h; cases h
    · rintro ⟨i, h1, h2⟩
      cases i with
      | zero => cases h2
      | succ j => cases j <;> cases h1
  | u :: v :: rest => by
    constructor
    · intro h
      rcases List.mem_cons.mp h with rfl | htail
      · exact ⟨0, rfl, rfl⟩
      · obtain ⟨j, h1, h2⟩ := (mem_pathEdges_iff e (v :: rest)).mp htail
        exact ⟨j + 1, h1, h2⟩
    · rintro ⟨i, h1, h2⟩
      cases i with
      | zero =>
        have he : e = (u, v) := by
          cases e
          simp only [List.get?] at h1 h2
          cases h1
          cases h2
          rfl
        rw [he]
        exact List.mem_cons_self _ _
      | succ j =>
        exact List.mem_cons_of_mem _ ((mem_pathEdges_iff e (v :: rest)).mpr ⟨j, h1, h2⟩)

/-- Counterexample to C1 as stated: path `[2, 1]` traverses edge `(1, 2)`
in the reverse direction, yet `solve_rmp` builds coefficient `0`, not the
column's `b_prime = 5`, because the membership test only matches the
stored orientation. -/
theorem rmpCoeff_reverse_counterexample :
    traversesEither (1, 2) [2, 1] ∧ rmpCoeff (1, 2) [2, 1] 5 ≠ 5 := by
  constructor
  · exact Or.inr ⟨0, rfl, rfl⟩
  · rw [rmpCoeff]
    rw [if_neg (by decide)]
    norm_num

/-- C1 (corrected): the coefficient of `z_k` in the row of edge `e` equals
`b_prime` exactly when path `p` contains the ordered pair `e` as a
consecutive pair in traversal order, and `0` otherwise (so a path using
the edge only in the reverse orientation contributes nothing); the
right-hand side of the row is `bandwidth(e) * T`. -/
theorem rmpCoeff_spec (e : ℕ × ℕ) (p : List ℕ) (bp : ℚ) :
    (traversesForward e p → rmpCoeff e p bp = bp) ∧
    (¬ traversesForward e p → rmpCoeff e p bp = 0) ∧
    (∀ bw T : ℚ, rmpRhs bw T = bw * T) := by
  refine ⟨?_, ?_, fun bw T => rfl⟩
  · intro h
    rw [rmpCoeff, if_pos ((mem_pathEdges_iff e p).mpr h)]
  · intro h
    rw [rmpCoeff, if_neg (fun hm => h ((mem_pathEdges_iff e p).mp hm))]

/-- Witness for C1: the forward-traversal hypothesis holds for edge
`(1, 2)` on path `[1, 2]` and the theorem yields coefficient 5 there. -/
theorem rmpCoeff_spec_witness :
    traversesForward (1, 2) [1, 2] ∧ rmpCoeff (1, 2) [1, 2] 5 = 5 :=
  ⟨⟨0, rfl, rfl⟩, (rmpCoeff_spec (1, 2) [1, 2] 5).1 ⟨0, rfl, rfl⟩⟩

/-- A column `(flow, path, shaping_parameter)` as used by `cgrr_algorithm`
(`algorithms.py` line 139). -/
structure Column where
  flow : Flow
  path : List ℕ
  bprime : ℚ
deriving DecidableEq

/-- `calculate_objective(solution, flows)` (`algorithms.py` lines 133-134):
sum of `arrival_rate` over entries whose value equals 1 (the `flows`
argument is unused in the source). -/
def calculate_objective (sol : List (Column × ℚ)) : ℚ :=
  ((sol.filter (fun cz => cz.2 == 1)).map (fun cz => cz.1.flow.arrival_rate)).sum

/-- `can_add_to_solution(current_solution, selected, network, cycle_duration_T)`
(`algorithms.py` lines 123-130): for every edge of the selected path, the
capacity used by already-selected columns (value 1) containing that edge,
plus the candidate's `b_prime`, must not exceed `bandwidth * T`. -/
def can_add_to_solution (cur : List (Column × ℚ)) (sel : Column)
    (bws : List ((ℕ × ℕ) × ℚ)) (T : ℚ) : Bool :=
  (pathEdges sel.path).all (fun e =>
    decide ((((cur.filter (fun cz => cz.2 == 1 && decide (e ∈ pathEdges cz.1.path))).map
      (fun cz => cz.1.bprime)).sum + sel.bprime) ≤ alistGet bws e 0 * T))

/-- Dictionary assignment `current_solution[selected] = 1`
(`algorithms.py` line 159): update in place if the key exists, else append
(Python dicts preserve insertion order). -/
def setOne (sol : List (Column × ℚ)) (c : Column) : List (Column × ℚ) :=
  if sol.any (fun cz => cz.1 == c) then
    sol.map (fun cz => if cz.1 == c then (cz.1, (1 : ℚ)) else cz)
  else
    sol ++ [(c, 1)]

/-- The fractional variables `[(f, p, b) for ..., if 0 < z < 1]`
(`algorithms.py` line 149). -/
def fractionalVars (rmpSol : List (Column × ℚ)) : List (Column × ℚ) :=
  rmpSol.filter (fun cz => decide (0 < cz.2) && decide (cz.2 < 1))

/-- The base integer set `{(f,p,b): z for ..., if z == 1}`
(`algorithms.py` line 145). -/
def baseSolution (rmpSol : List (Column × ℚ)) : List (Column × ℚ) :=
  rmpSol.filter (fun cz => cz.2 == 1)

/-- Inner sampling loop of the rounding phase (`algorithms.py` lines
150-159), run `|fractional_vars|` times: break if the total fractional
mass is not positive (it is recomputed from the unchanged `rmp_solution`
each iteration); otherwise draw a column — the random draw of step `k` is
supplied by the oracle `pick` — and set it to 1 if capacities permit. -/
def roundingSteps (rmpSol : List (Column × ℚ)) (bws : List ((ℕ × ℕ) × ℚ)) (T : ℚ)
    (pick : ℕ → Column) : ℕ → List (Column × ℚ) → List (Column × ℚ)
  | 0, cur => cur
  | k+1, cur =>
    if ((fractionalVars rmpSol).map (fun cz => cz.2)).sum ≤ 0 then cur
    else if can_add_to_solution cur (pick k) bws T then
      roundingSteps rmpSol bws T pick k (setOne cur (pick k))
    else
      roundingSteps rmpSol bws T pick k cur

/-- Outer rounding loop of `cgrr_algorithm` (`algorithms.py` lines
147-161): each round restarts from the base solution, samples with the
round's oracle `picks r`, and adopts the result only when its objective
strictly exceeds the best so far. -/
def cgrrRounding (rmpSol : List (Column × ℚ)) (bws : List ((ℕ × ℕ) × ℚ)) (T : ℚ)
    (picks : ℕ → ℕ → Column) : ℕ → List (Column × ℚ) → List (Column × ℚ)
  | 0, best => best
  | r+1, best =>
    cgrrRounding rmpSol bws T picks r
      (if calculate_objective best <
          calculate_objective (roundingSteps rmpSol bws T (picks r)
            (fractionalVars rmpSol).length (baseSolution rmpSol)) then
        roundingSteps rmpSol bws T (picks r) (fractionalVars rmpSol).length (baseSolution rmpSol)
      else best)

/-- The integer solution produced by the rounding phase of
`cgrr_algorithm` (`algorithms.py` lines 145-162) from the final RMP
solution, for a given sequence of random draws. -/
def cgrr_rounding_result (rmpSol : List (Column × ℚ)) (bws : List ((ℕ × ℕ) × ℚ)) (T : ℚ)
    (picks : ℕ → ℕ → Column) (maxSteps : ℕ) : List (Column × ℚ) :=
  cgrrRounding rmpSol bws T picks maxSteps (baseSolution rmpSol)

theorem cgrrRounding_mono (rmpSol : List (Column × ℚ)) (bws : List ((ℕ × ℕ) × ℚ)) (T : ℚ)
    (picks : ℕ → ℕ → Column) :
    ∀ r best, calculate_objective best ≤
      calculate_objective (cgrrRounding rmpSol bws T picks r best) := by
  intro r
  induction r with
  | zero => intro best; rw [cgrrRounding]
  | succ r ih =>
    intro best
    rw [cgrrRounding]
    by_cases h : calculate_objective best <
        calculate_objective (roundingSteps rmpSol bws T (picks r)
          (fractionalVars rmpSol).length (baseSolution rmpSol))
    · rw [if_pos h]
      exact le_trans (le_of_lt h) (ih _)
    · rw [if_neg h]
      exact ih best

/-- C3 (confirmed): for every RMP solution, network data and sequence of
random draws, the integer solution returned by the rounding phase of
`cgrr_algorithm` scores at least the base integer set `I0` (columns with
`z = 1`), because the best-so-far is seeded with `I0` and replaced only by
strictly better candidates. -/
theorem cgrr_rounding_monotone (rmpSol : List (Column × ℚ)) (bws : List ((ℕ × ℕ) × ℚ))
    (T : ℚ) (picks : ℕ → ℕ → Column) (maxSteps : ℕ) :
    calculate_objective (baseSolution rmpSol) ≤
      calculate_objective (cgrr_rounding_result rmpSol bws T picks maxSteps) :=
  cgrrRounding_mono rmpSol bws T picks maxSteps (baseSolution rmpSol)

/-- Node state relevant to mapping learning (`core_node.py` lines 8-22):
cycle duration, per-neighbor link delays, connected neighbors (in
insertion order) and the mapping table
`(in_port, in_label) -> list of (out_port, out_label)`. -/
structure MappingNode where
  cycle_duration_T : ℚ
  link_delays : List (ℕ × ℚ)
  connected : List ℕ
  mapping_table : List ((ℕ × ℤ) × List (ℕ × ℤ))

/-- `add_mapping(in_port, in_label, out_port, out_label)` (`core_node.py`
lines 24-37): append to the existing option list (skipping duplicates) or
create a fresh entry at the end, as a Python dict would. -/
def add_mapping : List ((ℕ × ℤ) × List (ℕ × ℤ)) → ℕ → ℤ → ℕ → ℤ →
    List ((ℕ × ℤ) × List (ℕ × ℤ))
  | [], ip, il, op, ol => [((ip, il), [(op, ol)])]
  | (k, lst) :: rest, ip, il, op, ol =>
    if k = (ip, il) then
      (k, if (op, ol) ∈ lst then lst else lst ++ [(op, ol)]) :: rest
    else
      (k, lst) :: add_mapping rest ip il op ol

/-- The out-port list chosen by `learn_mappings` (`core_node.py` lines
67-74, identically `ingress_node.py` lines 128-138): a single given
out-port unless it equals the in-port (then none, the early return), or
all connected neighbors except the in-port. -/
def learnOutports (nd : MappingNode) (ip : ℕ) : Option ℕ → List ℕ
  | some op => if ip = op then [] else [op]
  | none => nd.connected.filter (fun n => decide (n ≠ ip))

/-- `learn_mappings(upstream_node_id, in_port, out_port)` (`core_node.py`
lines 52-83 and the identical `ingress_node.py` lines 118-143): compute
`cycles_to_shift = ceil(link_delays.get(upstream, 0) / T)` and add, for
every chosen out-port and every in-label 0, 1, 2, the mapping
`(in_port, in_label) -> (out_port, (in_label + shift) mod 3)`. -/
def learn_mappings (nd : MappingNode) (upstream ip : ℕ) (opOpt : Option ℕ) : MappingNode :=
  { nd with mapping_table :=
      ((learnOutports nd ip opOpt).foldl
        (fun tbl op => ([0, 1, 2] : List ℤ).foldl
          (fun tbl2 il => add_mapping tbl2 ip il op
            ((il + ⌈alistGet nd.link_delays upstream 0 / nd.cycle_duration_T⌉) % 3)) tbl)
        nd.mapping_table) }

/-- Fold a sequence of `learn_mappings` calls `(upstream, in_port, out_port?)`
over a node. -/
def runLearnCalls (nd : MappingNode) (calls : List (ℕ × ℕ × Option ℕ)) : MappingNode :=
  calls.foldl (fun n c => learn_mappings n c.1 c.2.1 c.2.2) nd

/-- The invariant of C5 (amended): every option `(out_port, out_label)`
stored under key `(in_port, in_label)` has `out_port ≠ in_port`, an
in-label in `{0,1,2}`, and an out-label shifted by the ceiling of the
in-port's link delay over `T`. -/
def TableGood (ld : List (ℕ × ℚ)) (T : ℚ) (tbl : List ((ℕ × ℤ) × List (ℕ × ℤ))) : Prop :=
  ∀ kv ∈ tbl, ∀ v ∈ kv.2, v.1 ≠ kv.1.1 ∧ 0 ≤ kv.1.2 ∧ kv.1.2 < 3 ∧
    v.2 = (kv.1.2 + ⌈alistGet ld kv.1.1 0 / T⌉) % 3

theorem add_mapping_mem {tbl : List ((ℕ × ℤ) × List (ℕ × ℤ))} {ip : ℕ} {il : ℤ}
    {op : ℕ} {ol : ℤ} :
    ∀ kv ∈ add_mapping tbl ip il op ol, ∀ v ∈ kv.2,
      (∃ kv0 ∈ tbl, kv0.1 = kv.1 ∧ v ∈ kv0.2) ∨ (kv.1 = (ip, il) ∧ v = (op, ol)) := by
  induction tbl with
  | nil =>
    intro kv hkv v hv
    rw [add_mapping] at hkv
    rcases List.mem_singleton.mp hkv with rfl
    rcases List.mem_singleton.mp hv with rfl
    exact Or.inr ⟨rfl, rfl⟩
  | cons head rest ih =>
    intro kv hkv v hv
    obtain ⟨k, lst⟩ := head
    rw [add_mapping] at hkv
    by_cases hk : k = (ip, il)
    · rw [if_pos hk] at hkv
      rcases List.mem_cons.mp hkv with rfl | htail
      · by_cases hdup : (op, ol) ∈ lst
        · rw [if_pos hdup] at hv
          exact Or.inl ⟨(k, lst), List.mem_cons_self _ _, rfl, hv⟩
        · rw [if_neg hdup] at hv
          rcases List.mem_append.mp hv with hv | hv
          · exact Or.inl ⟨(k, lst), List.mem_cons_self _ _, rfl, hv⟩
          · exact Or.inr ⟨hk, List.mem_singleton.mp hv⟩
      · exact Or.inl ⟨kv, List.mem_cons_of_mem _ htail, rfl, hv⟩
    · rw [if_neg hk] at hkv
      rcases List.mem_cons.mp hkv with rfl | htail
      · exact Or.inl ⟨(k, lst), List.mem_cons_self _ _, rfl, hv⟩
      · rcases ih kv htail v hv with ⟨kv0, hkv0, heq, hvm⟩ | hnew
        · exact Or.inl ⟨kv0, List.mem_cons_of_mem _ hkv0, heq, hvm⟩
        · exact Or.inr hnew

theorem add_mapping_good {ld : List (ℕ × ℚ)} {T : ℚ}
    {tbl : List ((ℕ × ℤ) × List (ℕ × ℤ))} {ip : ℕ} {il : ℤ} {op : ℕ} {ol : ℤ}
    (htbl : TableGood ld T tbl) (hop : op ≠ ip) (h0 : 0 ≤ il) (h3 : il < 3)
    (hol : ol = (il + ⌈alistGet ld ip 0 / T⌉) % 3) :
    TableGood ld T (add_mapping tbl ip il op ol) := by
  intro kv hkv v hv
  rcases add_mapping_mem kv hkv v hv with ⟨kv0, hkv0, heq, hvm⟩ | ⟨hkey, hval⟩
  · have := htbl kv0 hkv0 v hvm
    rw [heq] at this
    exact this
  · rw [hkey, hval]
    exact ⟨hop, h0, h3, hol⟩

theorem foldl_labels_good {ld : List (ℕ × ℚ)} {T : ℚ} {ip : ℕ} {op : ℕ} {s : ℤ}
    (hop : op ≠ ip) (hs : s = ⌈alistGet ld ip 0 / T⌉) :
    ∀ (ils : List ℤ), (∀ il ∈ ils, 0 ≤ il ∧ il < 3) →
    ∀ tbl, TableGood ld T tbl →
    TableGood ld T (ils.foldl (fun t il => add_mapping t ip il op ((il + s) % 3)) tbl) := by
  intro ils
  induction ils with
  | nil => intro _ tbl htbl; exact htbl
  | cons il rest ih =>
    intro hbound tbl htbl
    rw [List.foldl_cons]
    refine ih (fun x hx => hbound x (List.mem_cons_of_mem _ hx)) _ ?_
    have hb := hbound il (List.mem_cons_self _ _)
    exact add_mapping_good htbl hop hb.1 hb.2 (by rw [hs])

theorem foldl_outports_good {ld : List (ℕ × ℚ)} {T : ℚ} {ip : ℕ} {s : ℤ}
    (hs : s = ⌈alistGet ld ip 0 / T⌉) :
    ∀ (ops : List ℕ), (∀ op ∈ ops, op ≠ ip) →
    ∀ tbl, TableGood ld T tbl →
    TableGood ld T (ops.foldl
      (fun t op => ([0, 1, 2] : List ℤ).foldl
        (fun t2 il => add_mapping t2 ip il op ((il + s) % 3)) t) tbl) := by
  intro ops
  induction ops with
  | nil => intro _ tbl htbl; exact htbl
  | cons op rest ih =>
    intro hops tbl htbl
    rw [List.foldl_cons]
    refine ih (fun x hx => hops x (List.mem_cons_of_mem _ hx)) _ ?_
    exact foldl_labels_good (hops op (List.mem_cons_self _ _)) hs
      [0, 1, 2] (by intro il hil; fin_cases hil <;> norm_num) tbl htbl

theorem learnOutports_ne (nd : MappingNode) (ip : ℕ) (opOpt : Option ℕ) :
    ∀ op ∈ learnOutports nd ip opOpt, op ≠ ip := by
  intro op hop
  cases opOpt with
  | some op0 =>
    rw [learnOutports] at hop
    by_cases h : ip = op0
    · rw [if_pos h] at hop
      cases hop
    · rw [if_neg h] at hop
      rcases List.mem_singleton.mp hop with rfl
      exact fun heq => h heq.symm
  | none =>
    rw [learnOutports] at hop
    have hmem := List.mem_filter.mp hop
    exact decide_eq_true_eq.mp hmem.2

theorem learn_mappings_good {nd : MappingNode} {ip : ℕ} {opOpt : Option ℕ}
    (htbl : TableGood nd.link_delays nd.cycle_duration_T nd.mapping_table) :
    TableGood nd.link_delays nd.cycle_duration_T
      (learn_mappings nd ip ip opOpt).mapping_table := by
  rw [learn_mappings]
  exact foldl_outports_good rfl (learnOutports nd ip opOpt)
    (learnOutports_ne nd ip opOpt) nd.mapping_table htbl

theorem runLearnCalls_fields (calls : List (ℕ × ℕ × Option ℕ)) :
    ∀ nd : MappingNode, (runLearnCalls nd calls).link_delays = nd.link_delays ∧
      (runLearnCalls nd calls).cycle_duration_T = nd.cycle_duration_T := by
  induction calls with
  | nil => intro nd; exact ⟨rfl, rfl⟩
  | cons c rest ih =>
    intro nd
    rw [runLearnCalls, List.foldl_cons]
    exact ih (learn_mappings nd c.1 c.2.1 c.2.2)

theorem runLearnCalls_good (calls : List (ℕ × ℕ × Option ℕ)) :
    ∀ nd : MappingNode, (∀ c ∈ calls, c.1 = c.2.1) →
    TableGood nd.link_delays nd.cycle_duration_T nd.mapping_table →
    TableGood nd.link_delays nd.cycle_duration_T (runLearnCalls nd calls).mapping_table := by
  induction calls with
  | nil => intro nd _ h; exact h
  | cons c rest ih =>
    intro nd hcalls htbl
    rw [runLearnCalls, List.foldl_cons]
    have hc : c.1 = c.2.1 := hcalls c (List.mem_cons_self _ _)
    rw [hc]
    exact ih (learn_mappings nd c.2.1 c.2.1 c.2.2)
      (fun x hx => hcalls x (List.mem_cons_of_mem _ hx))
      (learn_mappings_good htbl)

/-- C5 (corrected/amended): starting from an empty table and any sequence
of `learn_mappings` calls that pass the upstream node as the in-port — as
every call site in this repository does (`main.py` lines 155-158) — every
mapping entry satisfies `out_label = (in_label + ceil(delay(in_port)/T)) mod 3`,
a zero-delay in-port yields the identity label mapping, and no entry maps
onto its own in-port. -/
theorem learn_mappings_table_spec (nd0 : MappingNode) (calls : List (ℕ × ℕ × Option ℕ))
    (h0 : nd0.mapping_table = []) (hcalls : ∀ c ∈ calls, c.1 = c.2.1) :
    ∀ kv ∈ (runLearnCalls nd0 calls).mapping_table, ∀ v ∈ kv.2,
      v.1 ≠ kv.1.1 ∧
      v.2 = (kv.1.2 + ⌈alistGet nd0.link_delays kv.1.1 0 / nd0.cycle_duration_T⌉) % 3 ∧
      (alistGet nd0.link_delays kv.1.1 0 = 0 → v.2 = kv.1.2) := by
  have hgood := runLearnCalls_good calls nd0 hcalls
    (by rw [h0]; intro kv hkv; cases hkv)
  intro kv hkv v hv
  obtain ⟨hne, h0b, h3b, heq⟩ := hgood kv hkv v hv
  refine ⟨hne, heq, ?_⟩
  intro hzero
  rw [heq, hzero]
  rw [zero_div, Int.ceil_zero, add_zero]
  exact Int.emod_eq_of_lt h0b h3b

/-- Node used in the C5 counterexample: `T = 1`, neighbor 2 at delay 5,
neighbors 2, 3, 4, empty table. -/
def nodeC : MappingNode := ⟨1, [(2, 5)], [2, 3, 4], []⟩

/-- Counterexample to C5 as stated: the single call
`learn_mappings(upstream := 2, in_port := 3, out_port := 4)` stores, under
key `(3, 0)`, the option `(4, 2)` — the shift comes from upstream 2's
delay 5 — whereas the claim's formula (using the delay of in-port 3,
unknown hence 0) demands out-label `(0 + 0) mod 3 = 0 ≠ 2`. -/
theorem learn_mappings_upstream_counterexample :
    ∃ lst, ((3, 0), lst) ∈ (learn_mappings nodeC 2 3 (some 4)).mapping_table ∧
      (4, 2) ∈ lst ∧
      ¬ ((2 : ℤ) =
        ((0 : ℤ) + ⌈alistGet nodeC.link_delays 3 0 / nodeC.cycle_duration_T⌉) % 3) := by
  have htbl : (learn_mappings nodeC 2 3 (some 4)).mapping_table
      = [((3, 0), [(4, 2)]), ((3, 1), [(4, 0)]), ((3, 2), [(4, 1)])] := by
    rw [learn_mappings]
    norm_num [learnOutports, nodeC, alistGet, List.find?, add_mapping, ceil_via_floor]
  have hz : alistGet nodeC.link_delays 3 0 = 0 := rfl
  refine ⟨[(4, 2)], ?_, ?_, ?_⟩
  · rw [htbl]
    exact List.mem_cons_self _ _
  · exact List.mem_singleton.mpr rfl
  · rw [hz]
    norm_num [nodeC]

/-- Node used in the C5 witness: `T = 1`, neighbor 2 at delay 0,
neighbors 2 and 3, empty table. -/
def nodeD : MappingNode := ⟨1, [(2, 0)], [2, 3], []⟩

/-- Witness for C5: the hypotheses hold for `nodeD` with the single
aligned call `learn_mappings(2, in_port := 2)` and the theorem applies. -/
theorem learn_mappings_table_spec_witness :
    (nodeD.mapping_table = [] ∧
      ∀ c ∈ ([(2, 2, none)] : List (ℕ × ℕ × Option ℕ)), c.1 = c.2.1) ∧
    (∀ kv ∈ (runLearnCalls nodeD [(2, 2, none)]).mapping_table, ∀ v ∈ kv.2,
      v.1 ≠ kv.1.1 ∧
      v.2 = (kv.1.2 + ⌈alistGet nodeD.link_delays kv.1.1 0 / nodeD.cycle_duration_T⌉) % 3 ∧
      (alistGet nodeD.link_delays kv.1.1 0 = 0 → v.2 = kv.1.2)) :=
  ⟨⟨rfl, by intro c hc; rcases List.mem_singleton.mp hc with rfl; rfl⟩,
    learn_mappings_table_spec nodeD [(2, 2, none)] rfl
      (by intro c hc; rcases List.mem_singleton.mp hc with rfl; rfl)⟩

/-- Fuel-based body of `Flow.generate_packets` (`models.py` lines 25-33):
greedily emit packets of size `min(max_pkt_size, remaining_burst)` until
the remaining burst is no longer positive. -/
def generatePacketsAux (MPS : ℚ) (fid : ℕ) : ℕ → ℚ → List Packet
  | 0, _ => []
  | fuel+1, rem =>
    if 0 < rem then
      ⟨min MPS rem, fid, none⟩ :: generatePacketsAux MPS fid fuel (rem - min MPS rem)
    else
      []

/-- `Flow.generate_packets` with fuel `⌈burst/MPS⌉ + 1`, sufficient for
positive sizes (`generatePacketsAux_sum` shows the whole burst is
consumed within it). -/
def Flow.generate_packets (fl : Flow) : List Packet :=
  generatePacketsAux fl.max_pkt_size fl.flow_id
    (⌈fl.burst_size / fl.max_pkt_size⌉.toNat + 1) fl.burst_size

/-- `calculate_num_cycles(flow, shaping_parameter)` (`ingress_node.py`
lines 19-21): `ceil(burst_size / shaping_parameter)`. -/
def calculate_num_cycles (fl : Flow) (bp : ℚ) : ℤ :=
  ⌈fl.burst_size / bp⌉

/-- Packet-distribution loop of `shape_flow` (`ingress_node.py` lines
34-38): packet `i` gets label `i % num_cycles` and is appended to the
queue of that index. -/
def distributeAux (k : ℕ) : ℕ → List Packet → List (List Packet) → List (List Packet)
  | _, [], qs => qs
  | i, p :: rest, qs =>
    distributeAux k (i+1) rest
      (qs.set (i % k) (qs.getD (i % k) [] ++ [{ p with label := some ((i % k : ℕ) : ℤ) }]))

/-- `shape_flow(flow, shaping_parameter)` (`ingress_node.py` lines 23-38):
create `num_cycles` empty queues for the flow and distribute its packets
round-robin, labelling each with its queue index. -/
def shape_flow (fl : Flow) (bp : ℚ) : List (List Packet) :=
  distributeAux (calculate_num_cycles fl bp).toNat 0 fl.generate_packets
    (List.replicate (calculate_num_cycles fl bp).toNat [])

/-- `add_flow(flow, shaping_parameter)` (`ingress_node.py` lines 113-116):
`generate_packets` then `shape_flow`; the resulting per-cycle queues. -/
def add_flow (fl : Flow) (bp : ℚ) : List (List Packet) :=
  shape_flow fl bp

theorem generatePacketsAux_sum (MPS : ℚ) (fid : ℕ) (hm : 0 < MPS) :
    ∀ fuel (rem : ℚ), ⌈rem / MPS⌉.toNat ≤ fuel →
    ((generatePacketsAux MPS fid fuel rem).map Packet.size).sum = max rem 0 := by
  intro fuel
  induction fuel with
  | zero =>
    intro rem hf
    have h0 : ⌈rem / MPS⌉ ≤ 0 := by omega
    have hr : rem ≤ 0 := by
      by_contra hpos
      push_neg at hpos
      exact absurd (Int.ceil_pos.mpr (div_pos hpos hm)) (by omega)
    rw [generatePacketsAux]
    simp [max_eq_right hr]
  | succ fuel ih =>
    intro rem hf
    rw [generatePacketsAux]
    by_cases hr : 0 < rem
    · rw [if_pos hr]
      have hnext : ⌈(rem - min MPS rem) / MPS⌉.toNat ≤ fuel := by
        by_cases hcase : MPS ≤ rem
        · have hmin : min MPS rem = MPS := min_eq_left hcase
          have hceil : ⌈(rem - MPS) / MPS⌉ = ⌈rem / MPS⌉ - 1 := by
            rw [sub_div, div_self (ne_of_gt hm), Int.ceil_sub_one]
          have hpos1 : 1 ≤ ⌈rem / MPS⌉ := Int.ceil_pos.mpr (div_pos hr hm)
          rw [hmin, hceil]
          omega
        · push_neg at hcase
          have hmin : min MPS rem = rem := min_eq_right (le_of_lt hcase)
          rw [hmin]
          simp
      rw [List.map_cons, List.sum_cons, ih (rem - min MPS rem) hnext]
      have hsub : (0 : ℚ) ≤ rem - min MPS rem := by
        rw [sub_nonneg]
        exact min_le_right MPS rem
      rw [max_eq_left hsub, max_eq_left (le_of_lt hr)]
      ring
    · rw [if_neg hr]
      push_neg at hr
      simp [max_eq_right hr]

theorem generatePacketsAux_size_le (MPS : ℚ) (fid : ℕ) :
    ∀ fuel (rem : ℚ), ∀ p ∈ generatePacketsAux MPS fid fuel rem, p.size ≤ MPS := by
  intro fuel
  induction fuel with
  | zero => intro rem p hp; rw [generatePacketsAux] at hp; cases hp
  | succ fuel ih =>
    intro rem p hp
    rw [generatePacketsAux] at hp
    by_cases hr : 0 < rem
    · rw [if_pos hr] at hp
      rcases List.mem_cons.mp hp with rfl | hp
      · exact min_le_left MPS rem
      · exact ih _ p hp
    · rw [if_neg hr] at hp
      cases hp

theorem sum_map_set {α M : Type} [AddCommMonoid M] (f : α → M) (d : α) :
    ∀ (l : List α) (i : ℕ) (x : α), i < l.length →
    f (l.getD i d) + ((l.set i x).map f).sum = f x + (l.map f).sum := by
  intro l
  induction l with
  | nil => intro i x h; cases h
  | cons a rest ih =>
    intro i x h
    cases i with
    | zero =>
      simp only [List.getD_cons_zero, List.set_cons_zero, List.map_cons, List.sum_cons]
      rw [add_left_comm]
    | succ j =>
      simp only [List.getD_cons_succ, List.set_cons_succ, List.map_cons, List.sum_cons]
      rw [add_left_comm (f (rest.getD j d)) (f a), ih j x (Nat.lt_of_succ_lt_succ h),
        add_left_comm (f a) (f x)]

theorem distributeAux_length (k : ℕ) :
    ∀ ps i qs, (distributeAux k i ps qs).length = qs.length := by
  intro ps
  induction ps with
  | nil => intro i qs; rw [distributeAux]
  | cons p rest ih =>
    intro i qs
    rw [distributeAux, ih, List.length_set]

theorem distributeAux_sums (k : ℕ) (hk : 0 < k) (f : Packet → ℚ)
    (hf : ∀ p : Packet, ∀ j : ℤ, f { p with label := some j } = f p) :
    ∀ (ps : List Packet) (i : ℕ) (qs : List (List Packet)), qs.length = k →
    ((distributeAux k i ps qs).map (fun q => (q.map f).sum)).sum =
      (qs.map (fun q => (q.map f).sum)).sum + (ps.map f).sum := by
  intro ps
  induction ps with
  | nil => intro i qs _; rw [distributeAux]; simp
  | cons p rest ih =>
    intro i qs hlen
    rw [distributeAux, ih _ _ (by rw [List.length_set]; exact hlen)]
    have hidx : i % k < qs.length := by
      rw [hlen]
      exact Nat.mod_lt i hk
    have hset := sum_map_set (fun q : List Packet => (q.map f).sum) [] qs (i % k)
      (qs.getD (i % k) [] ++ [{ p with label := some ((i % k : ℕ) : ℤ) }]) hidx
    have hnew : ((qs.getD (i % k) [] ++ [{ p with label := some ((i % k : ℕ) : ℤ) }]).map
        f).sum = ((qs.getD (i % k) []).map f).sum + f p := by
      rw [List.map_append, List.sum_append]
      simp [hf p]
    simp only [hnew] at hset
    have hset2 : ((qs.set (i % k)
        (qs.getD (i % k) [] ++ [{ p with label := some ((i % k : ℕ) : ℤ) }])).map
        (fun q => (q.map f).sum)).sum =
        (qs.map (fun q => (q.map f).sum)).sum + f p := by
      linarith [hset]
    rw [hset2, List.map_cons, List.sum_cons]
    ring

theorem distributeAux_total_length (k : ℕ) (hk : 0 < k) :
    ∀ (ps : List Packet) (i : ℕ) (qs : List (List Packet)), qs.length = k →
    ((distributeAux k i ps qs).map List.length).sum =
      (qs.map List.length).sum + ps.length := by
  intro ps
  induction ps with
  | nil => intro i qs _; rw [distributeAux]; simp
  | cons p rest ih =>
    intro i qs hlen
    rw [distributeAux, ih _ _ (by rw [List.length_set]; exact hlen)]
    have hidx : i % k < qs.length := by
      rw [hlen]
      exact Nat.mod_lt i hk
    have hset := sum_map_set (List.length (α := Packet)) [] qs (i % k)
      (qs.getD (i % k) [] ++ [{ p with label := some ((i % k : ℕ) : ℤ) }]) hidx
    rw [List.length_append] at hset
    simp only [List.length_singleton] at hset
    have hset2 : ((qs.set (i % k)
        (qs.getD (i % k) [] ++ [{ p with label := some ((i % k : ℕ) : ℤ) }])).map
        List.length).sum = (qs.map List.length).sum + 1 := by
      omega
    rw [hset2, List.length_cons]
    omega

theorem mem_getD_flatten {qs : List (List Packet)} {i : ℕ} {p : Packet}
    (hp : p ∈ qs.getD i []) : p ∈ qs.flatten := by
  by_cases h : i < qs.length
  · rw [List.getD_eq_getElem qs [] h] at hp
    exact List.mem_flatten.mpr ⟨qs[i], List.getElem_mem h, hp⟩
  · rw [List.getD_eq_default qs [] (by omega)] at hp
    cases hp

theorem distributeAux_mem (k : ℕ) :
    ∀ (ps : List Packet) (i : ℕ) (qs : List (List Packet)),
    ∀ p ∈ (distributeAux k i ps qs).flatten,
      p ∈ qs.flatten ∨ ∃ p0 ∈ ps, ∃ j : ℕ, p = { p0 with label := some (j : ℤ) } := by
  intro ps
  induction ps with
  | nil => intro i qs p hp; rw [distributeAux] at hp; exact Or.inl hp
  | cons p0 rest ih =>
    intro i qs p hp
    rw [distributeAux] at hp
    rcases ih _ _ p hp with hq | ⟨p1, hp1, j, hj⟩
    · obtain ⟨q, hqmem, hpq⟩ := List.mem_flatten.mp hq
      rcases List.mem_or_eq_of_mem_set hqmem with hqs | rfl
      · exact Or.inl (List.mem_flatten.mpr ⟨q, hqs, hpq⟩)
      · rcases List.mem_append.mp hpq with hold | hnew
        · exact Or.inl (mem_getD_flatten hold)
        · exact Or.inr ⟨p0, List.mem_cons_self _ _, i % k, List.mem_singleton.mp hnew⟩
    · exact Or.inr ⟨p1, List.mem_cons_of_mem _ hp1, j, hj⟩

theorem flatten_map_sum (l : List (List Packet)) (f : Packet → ℚ) :
    (l.flatten.map f).sum = (l.map (fun q => (q.map f).sum)).sum := by
  rw [List.map_flatten, List.sum_flatten, List.map_map]
  rfl

/-- C8 (confirmed): for a flow with positive burst, packet size and
shaping parameter, `add_flow` (generate then shape) produces per-cycle
queues whose concatenation has exactly the generated packets: same count,
total size equal to the burst size, every packet at most `max_pkt_size`. -/
theorem add_flow_reconstructs (fl : Flow) (bp : ℚ)
    (hb : 0 < fl.burst_size) (hm : 0 < fl.max_pkt_size) (hp : 0 < bp) :
    (add_flow fl bp).flatten.length = fl.generate_packets.length ∧
    ((add_flow fl bp).flatten.map Packet.size).sum = fl.burst_size ∧
    ∀ p ∈ (add_flow fl bp).flatten, p.size ≤ fl.max_pkt_size := by
  have hk : 0 < (calculate_num_cycles fl bp).toNat := by
    have h1 : 1 ≤ ⌈fl.burst_size / bp⌉ := Int.ceil_pos.mpr (div_pos hb hp)
    rw [calculate_num_cycles]
    omega
  have hlen0 : (List.replicate (calculate_num_cycles fl bp).toNat ([] : List Packet)).length
      = (calculate_num_cycles fl bp).toNat := List.length_replicate _ _
  refine ⟨?_, ?_, ?_⟩
  · rw [add_flow, shape_flow, List.length_flatten,
      distributeAux_total_length _ hk _ _ _ hlen0]
    simp [List.map_replicate]
  · rw [add_flow, shape_flow, flatten_map_sum,
      distributeAux_sums _ hk Packet.size (fun p j => rfl) _ _ _ hlen0]
    have hgen : ((fl.generate_packets).map Packet.size).sum = fl.burst_size := by
      rw [Flow.generate_packets,
        generatePacketsAux_sum fl.max_pkt_size fl.flow_id hm _ fl.burst_size (by omega)]
      exact max_eq_left (le_of_lt hb)
    rw [hgen]
    simp [List.map_replicate]
  · intro p hp
    rw [add_flow, shape_flow] at hp
    rcases distributeAux_mem _ _ _ _ p hp with hq | ⟨p0, hp0, j, rfl⟩
    · rw [List.flatten_replicate_nil] at hq
      cases hq
    · exact generatePacketsAux_size_le fl.max_pkt_size fl.flow_id _ _ p0 hp0

/-- Witness for C8: the hypotheses hold for `flowA` with shaping
parameter 2 and the theorem applies there. -/
theorem add_flow_reconstructs_witness :
    (0 < flowA.burst_size ∧ 0 < flowA.max_pkt_size ∧ (0 : ℚ) < 2) ∧
    ((add_flow flowA 2).flatten.length = flowA.generate_packets.length ∧
      ((add_flow flowA 2).flatten.map Packet.size).sum = flowA.burst_size ∧
      ∀ p ∈ (add_flow flowA 2).flatten, p.size ≤ flowA.max_pkt_size) :=
  ⟨⟨by norm_num [flowA], by norm_num [flowA], by norm_num⟩,
    add_flow_reconstructs flowA 2 (by norm_num [flowA]) (by norm_num [flowA]) (by norm_num)⟩

/-- C6 (code bug): shaping `flowA` (burst 8 KB, MPS 1 KB) with the
feasible shaping parameter 2 — it is in `possible_shaping_parameters` —
creates 4 cycle queues, and `shape_flow` assigns label 3 to some packet:
packet labels are NOT confined to `{0, 1, 2}`.  (Core nodes only install
mappings for in-labels 0, 1, 2, so such packets can never match a
mapping downstream.) -/
theorem shape_flow_label_out_of_range :
    (2 : ℚ) ∈ possible_shaping_parameters flowA 1000 ∧
    ∃ p ∈ (shape_flow flowA 2).flatten, p.label = some 3 ∧
      (3 : ℤ) ∉ ([0, 1, 2] : List ℤ) := by
  constructor
  · have hps : possible_shaping_parameters flowA 1000 = [2, 3, 4, 8] := by
      norm_num [possible_shaping_parameters, shapingLoop, addParam, prevLE, mbpsToKBus,
        ceil_via_floor, List.insertionSort, List.orderedInsert, flowA]
    rw [hps]
    norm_num
  · have hq : shape_flow flowA 2 =
        [[⟨1, 1, some 0⟩, ⟨1, 1, some 0⟩], [⟨1, 1, some 1⟩, ⟨1, 1, some 1⟩],
         [⟨1, 1, some 2⟩, ⟨1, 1, some 2⟩], [⟨1, 1, some 3⟩, ⟨1, 1, some 3⟩]] := by
      have h4 : (calculate_num_cycles flowA 2).toNat = 4 := by
        have hc : calculate_num_cycles flowA 2 = 4 := by
          norm_num [calculate_num_cycles, flowA, ceil_via_floor]
        rw [hc]
        rfl
      rw [shape_flow, h4]
      norm_num [Flow.generate_packets, generatePacketsAux, distributeAux, flowA,
        ceil_via_floor, List.getD]
      rfl
    refine ⟨⟨1, 1, some 3⟩, ?_, rfl, by decide⟩
    rw [hq]
    simp

/-- Full ingress-node state: the fields inherited from `CoreNode`
(`core_node.py` lines 8-22: three cycle queues keyed by out-port, cycle
counter, active queue index, mapping table, routing table, next-hop map,
packet-flow map) plus the ingress-specific fields (`ingress_node.py`
lines 13-17: per-flow shaping queues, pending-flow order, flow paths). -/
structure IngressState where
  queues : List (List (ℕ × List Packet))
  current_cycle : ℕ
  active_queue_index : ℕ
  mapping_table : List ((ℕ × ℤ) × List (ℕ × ℤ))
  routing_table : List (ℕ × ℕ)
  next_hop_map : List (ℕ × ℕ)
  packet_flow_map : List (ℕ × ℕ)
  flow_queues : List (ℕ × List (List Packet))
  flow_order : List (ℕ × ℚ)
  flow_paths : List (ℕ × List ℕ)

/-- `IngressNode.receive_packet(packet, in_port)` (`ingress_node.py`
lines 99-111): the override only acquires the lock, reads the packet's
flow id and logs that the destination was reached — a log-only method, so
its embedding returns the state unchanged together with the (empty) list
of packets handed to neighbors. -/
def IngressState.receive_packet (s : IngressState) (pkt : Packet) (in_port : ℕ) :
    IngressState × List (ℕ × Packet) :=
  (s, [])

/-- C9 (confirmed): `IngressNode.receive_packet` leaves every component of
the node state unchanged and forwards or enqueues nothing: an ingress node
is a terminal destination for delivered packets, never a transit node. -/
theorem ingress_receive_packet_frame (s : IngressState) (pkt : Packet) (in_port : ℕ) :
    (IngressState.receive_packet s pkt in_port).1 = s ∧
    (IngressState.receive_packet s pkt in_port).2 = [] :=
  ⟨rfl, rfl⟩

end DetNet
